import Mathlib

/-!
Verification of the persistent data structures in `rust-pfds`:
the persistent binary `Tree`, the `UnbalancedSet` / `UnbalancedMap`
built on it (`src/set.rs`), the `LeftistHeap` priority queue
(`src/heap.rs`) and the balanced-tree constructors `complete` and
`tree_of` (`src/set.rs`).

The embedding is shallow: each Rust function is translated to a Lean
function over an inductive tree type.  `Rc` sharing disappears in the
embedding — two shared subtrees become the same Lean term — so
"returns the old structure shared unchanged" is rendered as equality
of terms.  Keys and heap items are taken over an arbitrary
`LinearOrder` (the Rust code demands only `PartialOrd`, but the spec
states that the algorithms assume a total order).  `usize` is modelled
by `Nat`, with an explicit wrap modulo `2 ^ 64` at the single place
where the source can underflow (`complete`'s `skip(depth - 1)`); the
`f64` cast in `tree_of`'s subtree-size computation is modelled exactly
(`to_f64`: round to a 53-bit significand, ties to even), since its
rounding changes the function's behaviour for very large sizes.
-/

namespace Pfds

/-- The persistent binary tree of `src/tree.rs` / `src/set.rs`:
`enum Tree<E> { E, T(Rc<Tree<E>>, E, Rc<Tree<E>>) }`.  The two copies
of this type in the repository are textually identical, so both are
embedded as this single inductive. -/
inductive Tree (E : Type) : Type where
  | E : Tree E
  | T : Tree E → E → Tree E → Tree E
deriving DecidableEq, Repr

namespace Tree

variable {α : Type}

/-- Rust `Tree::leaf(x)`: a node with two empty children. -/
def leaf (x : α) : Tree α := .T .E x .E

/-- Rust `BinaryTree::count`: number of nodes. -/
def count : Tree α → Nat
  | .E => 0
  | .T l _ r => 1 + l.count + r.count

/-- Rust `BinaryTree::depth`: height, `0` for the empty tree, and
`max(depth left, depth right) + 1` at a node. -/
def depth : Tree α → Nat
  | .E => 0
  | .T l _ r => max l.depth r.depth + 1

/-- In-order traversal (left, node, right); the spec states the BST
invariant in terms of this order. -/
def inorder : Tree α → List α
  | .E => []
  | .T l x r => l.inorder ++ x :: r.inorder

/-- Rust `BinaryTree::left`: the left child, if any. -/
def left : Tree α → Option (Tree α)
  | .E => none
  | .T l _ _ => some l

/-- Rust `BinaryTree::right`: the right child, if any. -/
def right : Tree α → Option (Tree α)
  | .E => none
  | .T _ _ r => some r

end Tree

/-! ## Leftist heap (`src/heap.rs`)

`type HeapTree<T> = Rc<Tree<(usize, T)>>` — a tree whose elements are
`(rank, item)` pairs; `LeftistHeap<T>` is a newtype around one such
tree, so the embedding works on the trees directly. -/

/-- Rust `HeapTree<T>`: tree of `(rank, item)` pairs. -/
abbrev HeapTree (α : Type) : Type := Tree (Nat × α)

namespace LeftistHeap

variable {α : Type} [LinearOrder α]

/-- Rust `rank`: the rank stored at the root, `0` for the empty tree. -/
def rank : HeapTree α → Nat
  | .E => 0
  | .T _ (r, _) _ => r

/-- Rust `make_t(x, a, b)`: build a node holding `x` with children `a`, `b`,
putting the child of larger rank on the left and storing
`rank(smaller child) + 1` as the new rank. -/
def make_t (x : α) (a b : HeapTree α) : HeapTree α :=
  if rank b ≤ rank a then .T a (rank b + 1, x) b else .T b (rank a + 1, x) a

/-- Rust `LeftistHeap::merge` (the inner `iter`): recursively merge along
right spines, keeping the smaller root (ties favour the first heap). -/
def merge (h1 h2 : HeapTree α) : HeapTree α :=
  match h1, h2 with
  | .E, h2 => h2
  | h1, .E => h1
  | .T a1 (r1, x) b1, .T a2 (r2, y) b2 =>
    if x ≤ y then make_t x a1 (merge b1 (.T a2 (r2, y) b2))
    else make_t y a2 (merge (.T a1 (r1, x) b1) b2)
termination_by h1.count + h2.count
decreasing_by
  all_goals (simp [Tree.count]; try omega)

/-- Rust `LeftistHeap::insert`: merge with the singleton heap `leaf((1, x))`. -/
def insert (h : HeapTree α) (x : α) : HeapTree α :=
  merge h (Tree.leaf (1, x))

/-- Rust `LeftistHeap::find_min`: the item at the root, if any. -/
def find_min : HeapTree α → Option α
  | .E => none
  | .T _ (_, x) _ => some x

/-- Rust `LeftistHeap::delete_min`: drop the root and merge its children;
the empty heap is returned unchanged. -/
def delete_min : HeapTree α → HeapTree α
  | .E => .E
  | .T a _ b => merge a b

/-- Rust `LeftistHeap::is_empty`. -/
def is_empty : HeapTree α → Bool
  | .E => true
  | .T _ _ _ => false

/-- The heaps reachable through the public interface: built from
`empty()` by any sequence of `insert`, `merge` and `delete_min`. -/
inductive Built : HeapTree α → Prop where
  | empty : Built .E
  | insert (h : HeapTree α) (x : α) : Built h → Built (insert h x)
  | merge (h1 h2 : HeapTree α) : Built h1 → Built h2 → Built (merge h1 h2)
  | delete_min (h : HeapTree α) : Built h → Built (delete_min h)

/-- The leftist invariant: at every node, `rank(left) ≥ rank(right)`
and the stored rank is `rank(right) + 1`. -/
def leftist : HeapTree α → Prop
  | .E => True
  | .T a (r, _) b => leftist a ∧ leftist b ∧ rank b ≤ rank a ∧ r = rank b + 1

/-- Length of the right spine (number of nodes reached by repeatedly
following the right child). -/
def rightSpine : HeapTree α → Nat
  | .E => 0
  | .T _ _ b => rightSpine b + 1

/-- At every node the stored rank is the length of the node's right
spine, i.e. `rightSpine(right child) + 1`. -/
def ranksOk : HeapTree α → Prop
  | .E => True
  | .T a (r, _) b => ranksOk a ∧ ranksOk b ∧ r = rightSpine b + 1

/-- All items stored in the heap. -/
def elems : HeapTree α → List α
  | .E => []
  | .T a (_, x) b => x :: (elems a ++ elems b)

/-- Heap order, node-locally: each node's item is `≤` the items at the
roots of both of its children. -/
def heap_ordered : HeapTree α → Prop
  | .E => True
  | .T a (_, x) b => heap_ordered a ∧ heap_ordered b ∧
      (∀ y, find_min a = some y → x ≤ y) ∧ (∀ y, find_min b = some y → x ≤ y)

/-- Heap order, strong form: each node's item is `≤` every item in
both of its subtrees.  This is the inductive invariant. -/
def heapOrd : HeapTree α → Prop
  | .E => True
  | .T a (_, x) b => heapOrd a ∧ heapOrd b ∧
      (∀ v ∈ elems a, x ≤ v) ∧ (∀ v ∈ elems b, x ≤ v)

end LeftistHeap

/-! ## Unbalanced set and map (`src/set.rs`) -/

/-- Rust `struct AlreadyPresent`: the error signalled by a duplicate
insertion, recovered locally by `insert` / `bind`. -/
inductive AlreadyPresent : Type where
  | mk : AlreadyPresent

namespace UnbalancedSet

variable {α : Type} [LinearOrder α]

/-- Rust `UnbalancedSet::member` (the inner `iter`): BST search. -/
def member : Tree α → α → Bool
  | .E, _ => false
  | .T l y r, x =>
    if x < y then member l x else if y < x then member r x else true

/-- The inner `iter` of `UnbalancedSet::insert`: descend comparing `x`
with the node's value, remembering as `candidate` the value of the
last node left by its right branch; at an empty slot, fail with
`AlreadyPresent` if the candidate equals `x`, else allocate a leaf. -/
def insertIter : Tree α → α → Option α → Except AlreadyPresent (Tree α)
  | .E, x, candidate =>
    match candidate with
    | some c => if c = x then .error .mk else .ok (.T .E x .E)
    | none => .ok (.T .E x .E)
  | .T l y r, x, candidate =>
    if x < y then
      match insertIter l x candidate with
      | .error e => .error e
      | .ok t => .ok (.T t y r)
    else
      match insertIter r x (some y) with
      | .error e => .error e
      | .ok t => .ok (.T l y t)

/-- Rust `UnbalancedSet::insert`: on `AlreadyPresent`, return the original
tree (in Rust, `Rc::clone` of the original root — the same tree). -/
def insert (s : Tree α) (x : α) : Tree α :=
  match insertIter s x none with
  | .ok t => t
  | .error .mk => s

/-- Strict BST ordering with optional lower/upper bounds; the
structural invariant of reachable sets. -/
def boundedBST : Option α → Option α → Tree α → Bool
  | _, _, .E => true
  | lo, hi, .T l y r =>
    (match lo with | none => true | some a => decide (a < y)) &&
    (match hi with | none => true | some b => decide (y < b)) &&
    boundedBST lo (some y) l && boundedBST (some y) hi r

/-- The BST invariant of an `UnbalancedSet`'s tree. -/
def isBST (t : Tree α) : Bool := boundedBST none none t

end UnbalancedSet

namespace UnbalancedMap

variable {K V : Type} [LinearOrder K]

/-- The inner `iter` of `UnbalancedMap::bind`.  NOTE: translated
exactly from the source — unlike the set's `insertIter`, the recursive
call on the *right* child passes `candidate` through unchanged instead
of `some y.1`, so the candidate never changes from the initial `none`. -/
def bindIter : Tree (K × V) → K → V → Option K →
    Except AlreadyPresent (Tree (K × V))
  | .E, x, v, candidate =>
    match candidate with
    | some c => if c = x then .error .mk else .ok (Tree.leaf (x, v))
    | none => .ok (Tree.leaf (x, v))
  | .T l y r, x, v, candidate =>
    if x < y.1 then
      match bindIter l x v candidate with
      | .error e => .error e
      | .ok t => .ok (.T t y r)
    else
      match bindIter r x v candidate with
      | .error e => .error e
      | .ok t => .ok (.T l y t)

/-- Rust `UnbalancedMap::bind`: on `AlreadyPresent`, return the original
tree. -/
def bind (m : Tree (K × V)) (k : K) (v : V) : Tree (K × V) :=
  match bindIter m k v none with
  | .ok t => t
  | .error .mk => m

/-- Rust `UnbalancedMap::lookup` (the inner `iter`): BST search on the
first components, returning the second component on a hit. -/
def lookup : Tree (K × V) → K → Option V
  | .E, _ => none
  | .T l y r, x =>
    if x < y.1 then lookup l x else if y.1 < x then lookup r x else some y.2

end UnbalancedMap

/-! ## Balanced-tree constructors (`src/set.rs`) -/

/-- The modulus of `usize` arithmetic (64-bit platform). -/
def WORD : Nat := 2 ^ 64

/-- Rust `complete(depth, value)`: `iterate(leaf, |s| T(s, value, s))
.skip(depth - 1).next().unwrap()`, i.e. `depth - 1` doublings starting
from a single leaf.  `depth - 1` is `usize` subtraction, which wraps:
it is modelled as `(depth + (WORD - 1)) % WORD`, which equals
`depth - 1` for `1 ≤ depth < WORD` and `WORD - 1` for `depth = 0`. -/
def complete {α : Type} (depth : Nat) (value : α) : Tree α :=
  (fun subtree => Tree.T subtree value subtree)^[(depth + (WORD - 1)) % WORD]
    (Tree.leaf value)

/-- Spacing of the `f64` grid at `n`: for `2 ^ 53 < n < 2 ^ 64`, the
representable doubles around `n` are the multiples of
`2 ^ (⌊log2 n⌋ - 52)` (53-bit significand).  Written as a comparison
table over the eleven binades of the `usize` range above `2 ^ 53`
(rather than via `Nat.log2`, which the kernel cannot evaluate on large
literals), so it computes by literal arithmetic; beyond `2 ^ 64` the
table saturates, but `usize` never reaches there. -/
def binade (n : Nat) : Nat :=
  if n < 2 ^ 54 then 2 ^ 1
  else if n < 2 ^ 55 then 2 ^ 2
  else if n < 2 ^ 56 then 2 ^ 3
  else if n < 2 ^ 57 then 2 ^ 4
  else if n < 2 ^ 58 then 2 ^ 5
  else if n < 2 ^ 59 then 2 ^ 6
  else if n < 2 ^ 60 then 2 ^ 7
  else if n < 2 ^ 61 then 2 ^ 8
  else if n < 2 ^ 62 then 2 ^ 9
  else if n < 2 ^ 63 then 2 ^ 10
  else 2 ^ 11

/-- Value of the Rust cast `n as f64`, as a natural number (valid for
`n < 2 ^ 64`): IEEE 754 round to nearest, ties to even.  Every
`n ≤ 2 ^ 53` is exactly representable; above that, `n` is rounded to
the nearest multiple of `binade n`, a tie going to the even
multiple. -/
def to_f64 (n : Nat) : Nat :=
  if n ≤ 2 ^ 53 then n
  else if n % binade n < binade n / 2 then n / binade n * binade n
  else if binade n / 2 < n % binade n then (n / binade n + 1) * binade n
  else if n / binade n % 2 = 0 then n / binade n * binade n
  else (n / binade n + 1) * binade n

/-- The grid spacing is between `2` and `2 ^ 11` in every branch of
the table. -/
theorem binade_bounds (n : Nat) : 2 ≤ binade n ∧ binade n ≤ 2 ^ 11 := by
  unfold binade
  repeat' split
  all_goals norm_num

/-- Rounding in `to_f64` never reaches twice the argument; this bounds
the subtree sizes in `tree_of` below and justifies its termination. -/
theorem to_f64_le (n : Nat) (hn : 1 ≤ n) : to_f64 n ≤ 2 * n - 1 := by
  unfold to_f64
  split
  next => omega
  next h =>
    obtain ⟨hb2, hb11⟩ := binade_bounds n
    have hbn : binade n ≤ n := by omega
    have hqle : n / binade n * binade n ≤ n := Nat.div_mul_le_self n _
    have hqr : n / binade n * binade n + n % binade n = n := by
      rw [Nat.mul_comm]
      exact Nat.div_add_mod n (binade n)
    have hadd : (n / binade n + 1) * binade n
        = n / binade n * binade n + binade n := by ring
    split
    next => omega
    next hge =>
      have hrge : 1 ≤ n % binade n := by omega
      split
      next => rw [hadd]; omega
      next =>
        split
        next => omega
        next => rw [hadd]; omega

mutual

/-- Rust `tree_of(size, value)`: a tree with (nominally) `size` nodes,
balanced to within one level.  The source computes the subtree size as
`((size - 1) as f64 / 2.0).floor() as usize`, i.e.
`to_f64 (size - 1) / 2` (the division by `2.0` only shifts the
exponent and the quotient is an integer below `2 ^ 63`, so floor and
the `usize` cast are exact). -/
def tree_of {α : Type} (size : Nat) (value : α) : Tree α :=
  match size with
  | 0 => .E
  | 1 => Tree.leaf value
  | n + 2 =>
    if h : (n + 2) % 2 = 0 then
      .T (create2 (to_f64 (n + 2 - 1) / 2) value).1 value
        (create2 (to_f64 (n + 2 - 1) / 2) value).2
    else
      .T (tree_of (to_f64 (n + 2 - 1) / 2) value) value
        (tree_of (to_f64 (n + 2 - 1) / 2) value)
termination_by 2 * size + 1
decreasing_by
  all_goals
    first
    | omega
    | (have hb := to_f64_le (n + 2 - 1) (by omega)
       omega)

/-- The inner `create2` of `tree_of`: a pair of trees of (nominally)
`m + 1` and `m` nodes (`(leaf, empty)` when `m = 0`). -/
def create2 {α : Type} (m : Nat) (value : α) : Tree α × Tree α :=
  if h : m = 0 then (Tree.leaf value, .E)
  else (tree_of (m + 1) value, tree_of m value)
termination_by 2 * m + 4
decreasing_by
  all_goals omega

end

/-- Predicate: every node of the tree holds `value`. -/
def allSame {α : Type} : Tree α → α → Prop
  | .E, _ => True
  | .T l x r, v => x = v ∧ allSame l v ∧ allSame r v

/-- Predicate: the two subtrees of the root split `size - 1` nodes to
within one of each other, the smaller getting `(size - 1) / 2`. -/
def balancedRoot {α : Type} : Tree α → Nat → Prop
  | .E, size => size = 0
  | .T l _ r, size =>
    min l.count r.count = (size - 1) / 2 ∧
    max l.count r.count ≤ (size - 1) / 2 + 1

/-! ## Lemmas and theorems: leftist heap -/

namespace LeftistHeap

variable {α : Type} [LinearOrder α]

theorem merge_empty_right (h1 : HeapTree α) : merge h1 .E = h1 := by
  cases h1 with
  | E => simp [merge]
  | T a p b =>
    rw [merge.eq_def]

theorem merge_empty_left (h2 : HeapTree α) : merge .E h2 = h2 := by
  simp [merge]

theorem leftist_rank_eq_rightSpine {t : HeapTree α} (h : leftist t) :
    rank t = rightSpine t := by
  induction t with
  | E => rfl
  | T a p b iha ihb =>
    obtain ⟨r, x⟩ := p
    obtain ⟨-, hb, -, hr⟩ := h
    simp only [rank, rightSpine]
    rw [hr, ihb hb]

theorem leftist_ranksOk {t : HeapTree α} (h : leftist t) : ranksOk t := by
  induction t with
  | E => trivial
  | T a p b iha ihb =>
    obtain ⟨r, x⟩ := p
    obtain ⟨ha, hb, -, hr⟩ := h
    exact ⟨iha ha, ihb hb, by rw [hr, ← leftist_rank_eq_rightSpine hb]⟩

theorem make_t_leftist (x : α) {a b : HeapTree α}
    (ha : leftist a) (hb : leftist b) : leftist (make_t x a b) := by
  unfold make_t
  split
  next h => exact ⟨ha, hb, h, rfl⟩
  next h => exact ⟨hb, ha, le_of_not_le h, rfl⟩

theorem merge_leftist (h1 h2 : HeapTree α) :
    leftist h1 → leftist h2 → leftist (merge h1 h2) := by
  induction h1, h2 using merge.induct with
  | case1 h2 => intro _ l2; simpa [merge] using l2
  | case2 h1 hne =>
    intro l1 _
    cases h1 with
    | E => exact absurd rfl hne
    | T a p b => simpa [merge] using l1
  | case3 a1 r1 x b1 a2 r2 y b2 hxy ih =>
    intro l1 l2
    simp only [merge, if_pos hxy]
    exact make_t_leftist x l1.1 (ih l1.2.1 l2)
  | case4 a1 r1 x b1 a2 r2 y b2 hxy ih =>
    intro l1 l2
    simp only [merge, if_neg hxy]
    exact make_t_leftist y l2.1 (ih l1 l2.2.1)

theorem built_leftist_aux {h : HeapTree α} (hb : Built h) : leftist h := by
  induction hb with
  | empty => trivial
  | insert h x _ ih =>
    exact merge_leftist _ _ ih ⟨trivial, trivial, le_refl _, rfl⟩
  | merge h1 h2 _ _ ih1 ih2 => exact merge_leftist _ _ ih1 ih2
  | delete_min h _ ih =>
    cases h with
    | E => trivial
    | T a p b =>
      obtain ⟨r, x⟩ := p
      exact merge_leftist _ _ ih.1 ih.2.1

theorem find_min_make_t (x : α) (a b : HeapTree α) :
    find_min (make_t x a b) = some x := by
  unfold make_t; split <;> rfl

theorem mem_elems_make_t (x : α) (a b : HeapTree α) (v : α) :
    v ∈ elems (make_t x a b) ↔ v = x ∨ v ∈ elems a ∨ v ∈ elems b := by
  unfold make_t
  split <;> simp [elems] <;> tauto

theorem mem_elems_merge (h1 h2 : HeapTree α) (v : α) :
    v ∈ elems (merge h1 h2) ↔ v ∈ elems h1 ∨ v ∈ elems h2 := by
  induction h1, h2 using merge.induct with
  | case1 h2 => simp [merge, elems]
  | case2 h1 hne =>
    cases h1 with
    | E => simp [merge, elems]
    | T a p b => simp [merge_empty_right, elems]
  | case3 a1 r1 x b1 a2 r2 y b2 hxy ih =>
    simp only [merge, if_pos hxy]
    rw [mem_elems_make_t]
    simp only [elems, List.mem_cons, List.mem_append] at ih ⊢
    tauto
  | case4 a1 r1 x b1 a2 r2 y b2 hxy ih =>
    simp only [merge, if_neg hxy]
    rw [mem_elems_make_t]
    simp only [elems, List.mem_cons, List.mem_append] at ih ⊢
    tauto

theorem heapOrd_root_le {t : HeapTree α} (h : heapOrd t) (m : α)
    (hm : find_min t = some m) : ∀ v ∈ elems t, m ≤ v := by
  cases t with
  | E => simp [elems]
  | T a p b =>
    obtain ⟨r, x⟩ := p
    cases hm
    intro v hv
    simp only [elems, List.mem_cons, List.mem_append] at hv
    rcases hv with rfl | hv | hv
    · exact le_refl _
    · exact h.2.2.1 v hv
    · exact h.2.2.2 v hv

theorem make_t_heapOrd (x : α) {a b : HeapTree α}
    (ha : heapOrd a) (hb : heapOrd b)
    (hba : ∀ v ∈ elems a, x ≤ v) (hbb : ∀ v ∈ elems b, x ≤ v) :
    heapOrd (make_t x a b) := by
  unfold make_t
  split
  · exact ⟨ha, hb, hba, hbb⟩
  · exact ⟨hb, ha, hbb, hba⟩

theorem merge_heapOrd (h1 h2 : HeapTree α) :
    heapOrd h1 → heapOrd h2 → heapOrd (merge h1 h2) := by
  induction h1, h2 using merge.induct with
  | case1 h2 => intro _ o2; simpa [merge] using o2
  | case2 h1 hne =>
    intro o1 _
    cases h1 with
    | E => exact absurd rfl hne
    | T a p b => simpa [merge_empty_right] using o1
  | case3 a1 r1 x b1 a2 r2 y b2 hxy ih =>
    intro o1 o2
    simp only [merge, if_pos hxy]
    refine make_t_heapOrd x o1.1 (ih o1.2.1 o2) o1.2.2.1 ?_
    intro v hv
    rw [mem_elems_merge] at hv
    rcases hv with hv | hv
    · exact o1.2.2.2 v hv
    · exact le_trans hxy (heapOrd_root_le o2 y rfl v hv)
  | case4 a1 r1 x b1 a2 r2 y b2 hxy ih =>
    intro o1 o2
    simp only [merge, if_neg hxy]
    refine make_t_heapOrd y o2.1 (ih o1 o2.2.1) o2.2.2.1 ?_
    intro v hv
    rw [mem_elems_merge] at hv
    rcases hv with hv | hv
    · exact le_trans (le_of_not_le hxy) (heapOrd_root_le o1 x rfl v hv)
    · exact o2.2.2.2 v hv

theorem built_heapOrd {h : HeapTree α} (hb : Built h) : heapOrd h := by
  induction hb with
  | empty => trivial
  | insert h x _ ih =>
    refine merge_heapOrd _ _ ih ⟨trivial, trivial, ?_, ?_⟩ <;> simp [elems]
  | merge h1 h2 _ _ ih1 ih2 => exact merge_heapOrd _ _ ih1 ih2
  | delete_min h _ ih =>
    cases h with
    | E => trivial
    | T a p b =>
      obtain ⟨r, x⟩ := p
      exact merge_heapOrd _ _ ih.1 ih.2.1

theorem heapOrd_heap_ordered {t : HeapTree α} (h : heapOrd t) :
    heap_ordered t := by
  induction t with
  | E => trivial
  | T a p b iha ihb =>
    obtain ⟨r, x⟩ := p
    refine ⟨iha h.1, ihb h.2.1, ?_, ?_⟩
    · intro y hy
      cases a with
      | E => cases hy
      | T a2 p2 b2 =>
        obtain ⟨r2, x2⟩ := p2
        cases hy
        exact h.2.2.1 _ (by simp [elems])
    · intro y hy
      cases b with
      | E => cases hy
      | T a2 p2 b2 =>
        obtain ⟨r2, x2⟩ := p2
        cases hy
        exact h.2.2.2 _ (by simp [elems])

/-- C3: every heap built from `empty()` by any sequence of `insert`,
`merge` and `delete_min` satisfies the leftist invariant — at every
node `rank(left) ≥ rank(right)` — and every node's stored rank is
`1 + rank(right child)`, the length of its right spine. -/
theorem built_heaps_leftist {α : Type} [LinearOrder α]
    (h : HeapTree α) (hb : Built h) : leftist h ∧ ranksOk h :=
  ⟨built_leftist_aux hb, leftist_ranksOk (built_leftist_aux hb)⟩

theorem built_heaps_leftist_witness :
    leftist (insert (insert (insert (.E : HeapTree Int) 5) 7) 2) ∧
    ranksOk (insert (insert (insert (.E : HeapTree Int) 5) 7) 2) :=
  built_heaps_leftist _
    (Built.insert _ 2 (Built.insert _ 7 (Built.insert _ 5 Built.empty)))

/-- C4: every heap built from `empty()` by any sequence of `insert`,
`merge` and `delete_min` is heap-ordered — each node's item is `≤` the
items at the roots of both children — and the root's item is a minimum
of all items in the heap. -/
theorem built_heaps_heap_ordered {α : Type} [LinearOrder α]
    (h : HeapTree α) (hb : Built h) :
    heap_ordered h ∧
      ∀ m, find_min h = some m → ∀ v ∈ elems h, m ≤ v :=
  ⟨heapOrd_heap_ordered (built_heapOrd hb),
   fun m hm => heapOrd_root_le (built_heapOrd hb) m hm⟩

theorem built_heaps_heap_ordered_witness :
    heap_ordered (insert (insert (insert (.E : HeapTree Int) 5) 7) 2) :=
  (built_heaps_heap_ordered _
    (Built.insert _ 2 (Built.insert _ 7 (Built.insert _ 5 Built.empty)))).1

/-- C5: for any two non-empty heaps, the root of the merge is the
minimum of the two roots: `merge(A, B).find_min() = min(A.find_min(),
B.find_min())`. -/
theorem merge_find_min {α : Type} [LinearOrder α] (h1 h2 : HeapTree α)
    (x y : α) (hx : find_min h1 = some x) (hy : find_min h2 = some y) :
    find_min (merge h1 h2) = some (min x y) := by
  cases h1 with
  | E => cases hx
  | T a1 p1 b1 =>
    obtain ⟨r1, x1⟩ := p1
    cases h2 with
    | E => cases hy
    | T a2 p2 b2 =>
      obtain ⟨r2, y2⟩ := p2
      have hx' : x1 = x := by simpa [find_min] using hx
      have hy' : y2 = y := by simpa [find_min] using hy
      subst hx'
      subst hy'
      simp only [merge]
      split
      next hle => rw [find_min_make_t, min_eq_left hle]
      next hgt => rw [find_min_make_t, min_eq_right (le_of_not_le hgt)]

theorem merge_find_min_witness :
    find_min (merge (.T .E (1, 5) .E) (.T .E (1, 3) .E) : HeapTree Int) =
      some (min 5 3) :=
  merge_find_min _ _ 5 3 rfl rfl

/-- C6: `delete_min` on a non-empty heap merges the old root's two
children (dropping the root), and draining the heap built by inserting
`5, 1, 4, 2, 3` yields the minima `1, 2, 3, 4, 5` in order, ending
empty. -/
theorem delete_min_merges_children_and_drains_sorted :
    (∀ (β : Type) [LinearOrder β] (a b : HeapTree β) (p : Nat × β),
        delete_min (.T a p b) = merge a b) ∧
    (let h0 : HeapTree Int :=
        insert (insert (insert (insert (insert .E 5) 1) 4) 2) 3
     find_min h0 = some 1 ∧
     find_min (delete_min h0) = some 2 ∧
     find_min (delete_min (delete_min h0)) = some 3 ∧
     find_min (delete_min (delete_min (delete_min h0))) = some 4 ∧
     find_min (delete_min (delete_min (delete_min (delete_min h0)))) = some 5 ∧
     delete_min (delete_min (delete_min (delete_min (delete_min h0)))) = .E) := by
  constructor
  · intro β _ a b p
    rfl
  · norm_num [insert, merge, merge_empty_right, make_t, rank, Tree.leaf,
      find_min, delete_min, -Prod.mk_one_one]

/-- C10: on the empty heap, `find_min` returns `None` and `delete_min`
returns the empty heap; both are total, and `find_min` returns `None`
exactly when `is_empty` is true. -/
theorem empty_heap_edge_total (α : Type) [LinearOrder α] :
    find_min (.E : HeapTree α) = none ∧
    delete_min (.E : HeapTree α) = .E ∧
    ∀ h : HeapTree α, (find_min h = none ↔ is_empty h = true) := by
  refine ⟨rfl, rfl, ?_⟩
  intro h
  cases h with
  | E => simp [find_min, is_empty]
  | T a p b =>
    obtain ⟨r, x⟩ := p
    simp [find_min, is_empty]

end LeftistHeap

/-! ## Lemmas and theorems: unbalanced set and map -/

namespace UnbalancedSet

variable {α : Type} [LinearOrder α]

theorem lowerBound_lt :
    ∀ (t : Tree α) (a : α) (hi : Option α), boundedBST (some a) hi t = true →
      ∀ k ∈ t.inorder, a < k := by
  intro t
  induction t with
  | E => simp [Tree.inorder]
  | T l y r ihl ihr =>
    intro a hi hb k hk
    simp only [boundedBST, Bool.and_eq_true, decide_eq_true_eq] at hb
    obtain ⟨⟨⟨hay, -⟩, hl⟩, hr⟩ := hb
    simp only [Tree.inorder, List.mem_append, List.mem_cons] at hk
    rcases hk with hk | rfl | hk
    · exact ihl a (some y) hl k hk
    · exact hay
    · exact lt_trans hay (ihr y hi hr k hk)

theorem insertIter_all_gt {x : α} :
    ∀ t : Tree α, (∀ k ∈ t.inorder, x < k) →
      insertIter t x (some x) = .error .mk := by
  intro t
  induction t with
  | E => simp [insertIter]
  | T l y r ihl ihr =>
    intro hgt
    have hxy : x < y := hgt y (by simp [Tree.inorder])
    simp only [insertIter, if_pos hxy]
    rw [ihl fun k hk => hgt k (by simp [Tree.inorder, hk])]

theorem insertIter_member_error {x : α} :
    ∀ (t : Tree α) (lo hi : Option α), boundedBST lo hi t = true →
      member t x = true → ∀ cand, insertIter t x cand = .error .mk := by
  intro t
  induction t with
  | E => simp [member]
  | T l y r ihl ihr =>
    intro lo hi hb hm cand
    simp only [boundedBST, Bool.and_eq_true] at hb
    obtain ⟨⟨-, hl⟩, hr⟩ := hb
    by_cases hxy : x < y
    · simp only [member, if_pos hxy] at hm
      simp only [insertIter, if_pos hxy]
      rw [ihl lo (some y) hl hm cand]
    · simp only [member, if_neg hxy] at hm
      simp only [insertIter, if_neg hxy]
      by_cases hyx : y < x
      · simp only [if_pos hyx] at hm
        rw [ihr (some y) hi hr hm (some y)]
      · have hxeq : x = y := le_antisymm (not_lt.mp hyx) (not_lt.mp hxy)
        subst hxeq
        rw [insertIter_all_gt r (lowerBound_lt r x hi hr)]

/-- C7: the set `Set::empty().insert(2).insert(1).insert(3)` contains
`1`, `2` and `3` but not `4`; and inserting a value that is already a
member of a (BST-invariant) set returns the original tree unchanged —
in the Rust source, the very same `Rc`-shared tree. -/
theorem set_insert_duplicate_shares (s : Tree α) (x : α)
    (hbst : isBST s = true) (hmem : member s x = true) :
    insert s x = s ∧
    (member (insert (insert (insert (.E : Tree Int) 2) 1) 3) 1 = true ∧
     member (insert (insert (insert (.E : Tree Int) 2) 1) 3) 2 = true ∧
     member (insert (insert (insert (.E : Tree Int) 2) 1) 3) 3 = true ∧
     member (insert (insert (insert (.E : Tree Int) 2) 1) 3) 4 = false) := by
  refine ⟨?_, by decide⟩
  unfold insert
  rw [insertIter_member_error s none none hbst hmem none]

theorem set_insert_duplicate_shares_witness :
    insert (insert (insert (insert (.E : Tree Int) 2) 1) 3) 2 =
      insert (insert (insert (.E : Tree Int) 2) 1) 3 :=
  (set_insert_duplicate_shares (insert (insert (insert (.E : Tree Int) 2) 1) 3)
    2 (by decide) (by decide)).1

end UnbalancedSet

namespace UnbalancedMap

/-- C1 (code bug): binding a key that is already bound does *not*
return the old map unchanged.  Because `bind`'s inner `iter` passes
`candidate` through unchanged on the right branch (instead of `Some`
of the passed node's key, as the set's `insert` does), the duplicate
check never fires: `bind(0, 10).bind(0, 20)` allocates a second node
for key `0`, giving a 2-node tree.  Lookup still returns the *old*
value `10`, since the duplicate sits below the original binding. -/
theorem bind_existing_key_allocates :
    bind (bind (.E : Tree (Int × Int)) 0 10) 0 20 ≠
      bind (.E : Tree (Int × Int)) 0 10 ∧
    Tree.count (bind (bind (.E : Tree (Int × Int)) 0 10) 0 20) = 2 ∧
    lookup (bind (bind (.E : Tree (Int × Int)) 0 10) 0 20) 0 = some 10 := by
  decide

/-- C2 (code bug): a map built by `bind` alone can violate the BST
invariant: after `bind(0, 1).bind(0, 2)` the in-order key sequence is
`[0, 0]` — not strictly increasing, two entries share a key.  (The
set's `insert` is not affected; only `bind`'s broken candidate
threading is.) -/
theorem bind_duplicate_key_breaks_bst :
    (Tree.inorder (bind (bind (.E : Tree (Int × Int)) 0 1) 0 2)).map
        Prod.fst = [0, 0] ∧
    ¬ List.Chain' (· < ·)
      ((Tree.inorder (bind (bind (.E : Tree (Int × Int)) 0 1) 0 2)).map
        Prod.fst) := by
  have hkeys : (Tree.inorder (bind (bind (.E : Tree (Int × Int)) 0 1) 0 2)).map
      Prod.fst = [0, 0] := by decide
  refine ⟨hkeys, ?_⟩
  rw [hkeys]
  simp

end UnbalancedMap

/-! ## Lemmas and theorems: balanced-tree constructors -/

theorem to_f64_exact {n : Nat} (h : n ≤ 2 ^ 53) : to_f64 n = n := by
  unfold to_f64
  rw [if_pos h]

theorem count_tree_of {α : Type} : ∀ (size : Nat), size ≤ 2 ^ 53 + 1 →
    ∀ (v : α), (tree_of size v).count = size := by
  intro size
  induction size using Nat.strong_induction_on with
  | _ size ih =>
    intro hsize v
    match size with
    | 0 => simp [tree_of, Tree.count]
    | 1 => simp [tree_of, Tree.leaf, Tree.count]
    | n + 2 =>
      have hexp : to_f64 (n + 2 - 1) = n + 2 - 1 := to_f64_exact (by omega)
      rw [tree_of, hexp]
      split
      next heven =>
        rw [create2]
        split
        next hm0 =>
          simp only [Tree.count, Tree.leaf]
          omega
        next hm0 =>
          simp only [Tree.count]
          rw [ih ((n + 2 - 1) / 2 + 1) (by omega) (by omega) v,
            ih ((n + 2 - 1) / 2) (by omega) (by omega) v]
          omega
      next hodd =>
        simp only [Tree.count]
        rw [ih ((n + 2 - 1) / 2) (by omega) (by omega) v]
        omega

/-- C8 (amended): for every `size ≤ 2 ^ 53 + 1` — i.e. whenever
`size − 1` is exactly representable in `f64`, which covers every
materialisable tree — `tree_of(size, value)` terminates with a tree of
exactly `size` nodes whose root subtrees are balanced to within one
node, the smaller holding `⌊(size − 1) / 2⌋`; and `tree_of(10, ())`
has `count() = 10`, `depth() = 4` and both root subtrees of depth 3.
(For larger sizes the `f64` cast of `size − 1` rounds and the claim
fails; see the counterexample at `size = 2 ^ 53 + 4`.) -/
theorem tree_of_count_balanced {α : Type} (size : Nat) (v : α)
    (hsize : size ≤ 2 ^ 53 + 1) :
    (tree_of size v).count = size ∧
    balancedRoot (tree_of size v) size ∧
    ((tree_of 10 ()).count = 10 ∧ (tree_of 10 ()).depth = 4 ∧
     Option.map Tree.depth (tree_of 10 ()).left = some 3 ∧
     Option.map Tree.depth (tree_of 10 ()).right = some 3) := by
  refine ⟨count_tree_of size hsize v, ?_, ?_⟩
  · match size with
    | 0 => simp [tree_of, balancedRoot]
    | 1 => simp [tree_of, Tree.leaf, balancedRoot, Tree.count]
    | n + 2 =>
      have hexp : to_f64 (n + 2 - 1) = n + 2 - 1 := to_f64_exact (by omega)
      rw [tree_of, hexp]
      split
      next heven =>
        rw [create2]
        split
        next hm0 =>
          simp only [balancedRoot, Tree.count, Tree.leaf]
          omega
        next hm0 =>
          simp only [balancedRoot]
          rw [count_tree_of ((n + 2 - 1) / 2 + 1) (by omega) v,
            count_tree_of ((n + 2 - 1) / 2) (by omega) v]
          omega
      next hodd =>
        simp only [balancedRoot]
        rw [count_tree_of ((n + 2 - 1) / 2) (by omega) v]
        omega
  · norm_num [tree_of, create2, to_f64, Tree.leaf, Tree.count, Tree.depth,
      Tree.left, Tree.right]

theorem tree_of_count_balanced_witness :
    (tree_of 5 (0 : Int)).count = 5 ∧ balancedRoot (tree_of 5 (0 : Int)) 5 :=
  ⟨(tree_of_count_balanced 5 (0 : Int) (by norm_num)).1,
   (tree_of_count_balanced 5 (0 : Int) (by norm_num)).2.1⟩

theorem to_f64_two_pow53_add3 : to_f64 (2 ^ 53 + 3) = 2 ^ 53 + 4 := by
  decide

theorem tree_of_two_pow53_add4_unfold :
    tree_of (2 ^ 53 + 4) (0 : Int) =
      .T (tree_of (2 ^ 52 + 3) 0) 0 (tree_of (2 ^ 52 + 2) 0) := by
  have hsz : (2 : Nat) ^ 53 + 4 = 2 ^ 53 + 2 + 2 := by norm_num
  rw [hsz, tree_of, dif_pos (by norm_num)]
  have harg : (2 : Nat) ^ 53 + 2 + 2 - 1 = 2 ^ 53 + 3 := by norm_num
  rw [harg, to_f64_two_pow53_add3]
  have hm : ((2 : Nat) ^ 53 + 4) / 2 = 2 ^ 52 + 2 := by norm_num
  have h31 : (2 : Nat) ^ 52 + 2 + 1 = 2 ^ 52 + 3 := by norm_num
  rw [hm, create2, dif_neg (by norm_num), h31]

/-- C8 counterexample: at `size = 2 ^ 53 + 4` the source's cast
`(size - 1) as f64` rounds `2 ^ 53 + 3` up to `2 ^ 53 + 4` (IEEE
round-to-nearest, ties to even), so the subtree size becomes
`2 ^ 52 + 2` instead of `⌊(size − 1) / 2⌋ = 2 ^ 52 + 1`: the tree that
`tree_of` builds has `2 ^ 53 + 6` nodes, not `size`, and its smaller
root subtree does not hold `⌊(size − 1) / 2⌋` nodes. -/
theorem tree_of_f64_wrong_count :
    Tree.count (tree_of (2 ^ 53 + 4) (0 : Int)) ≠ 2 ^ 53 + 4 ∧
    ¬ balancedRoot (tree_of (2 ^ 53 + 4) (0 : Int)) (2 ^ 53 + 4) := by
  have count_node : ∀ (a b : Tree Int) (x : Int),
      Tree.count (.T a x b) = 1 + a.count + b.count := fun _ _ _ => rfl
  have balancedRoot_node : ∀ (a b : Tree Int) (x : Int) (size : Nat),
      balancedRoot (.T a x b) size =
        (min a.count b.count = (size - 1) / 2 ∧
         max a.count b.count ≤ (size - 1) / 2 + 1) := fun _ _ _ _ => rfl
  have hc3 : (tree_of (2 ^ 52 + 3) (0 : Int)).count = 2 ^ 52 + 3 :=
    count_tree_of (2 ^ 52 + 3) (by norm_num) 0
  have hc2 : (tree_of (2 ^ 52 + 2) (0 : Int)).count = 2 ^ 52 + 2 :=
    count_tree_of (2 ^ 52 + 2) (by norm_num) 0
  rw [tree_of_two_pow53_add4_unfold, count_node, balancedRoot_node, hc3, hc2]
  constructor
  · norm_num
  · intro hcon
    omega

theorem complete_iterate_spec {α : Type} (v : α) :
    ∀ k : Nat,
      ((fun subtree => Tree.T subtree v subtree)^[k] (Tree.leaf v)).depth = k + 1 ∧
      ((fun subtree => Tree.T subtree v subtree)^[k] (Tree.leaf v)).count =
        2 ^ (k + 1) - 1 ∧
      allSame ((fun subtree => Tree.T subtree v subtree)^[k] (Tree.leaf v)) v := by
  intro k
  induction k with
  | zero => simp [Tree.leaf, Tree.depth, Tree.count, allSame]
  | succ k ih =>
    rw [Function.iterate_succ_apply']
    obtain ⟨hd, hc, ha⟩ := ih
    refine ⟨?_, ?_, ⟨rfl, ha, ha⟩⟩
    · simp [Tree.depth, hd]
    · have h2 : 2 ^ (k + 1 + 1) = 2 * 2 ^ (k + 1) := by ring
      have h1 : 1 ≤ 2 ^ (k + 1) := Nat.one_le_two_pow
      simp only [Tree.count, hc]
      omega

set_option maxRecDepth 4096 in
/-- C9 (amended): for every `depth` with `1 ≤ depth < 2 ^ 64`,
`complete(depth, value)` is a complete tree of height exactly `depth`
in which every node holds `value`, with `2 ^ depth − 1` nodes.  (At
`depth = 0` the source underflows `depth - 1` in `usize`; see the
counterexample.) -/
theorem complete_depth_count {α : Type} (d : Nat) (v : α)
    (h1 : 1 ≤ d) (h2 : d < WORD) :
    (complete d v).depth = d ∧ (complete d v).count = 2 ^ d - 1 ∧
      allSame (complete d v) v := by
  unfold complete
  have hidx : (d + (WORD - 1)) % WORD = d - 1 := by
    unfold WORD at h2 ⊢
    omega
  rw [hidx]
  obtain ⟨hd, hc, ha⟩ := complete_iterate_spec v (d - 1)
  refine ⟨?_, ?_, ha⟩
  · rw [hd, Nat.sub_add_cancel h1]
  · rw [hc, Nat.sub_add_cancel h1]

theorem complete_depth_count_witness :
    (complete 3 (0 : Int)).depth = 3 ∧ (complete 3 (0 : Int)).count = 2 ^ 3 - 1 ∧
      allSame (complete 3 (0 : Int)) (0 : Int) :=
  complete_depth_count 3 0 (by norm_num) (by norm_num [WORD])

/-- C9 counterexample: at `depth = 0` the source computes
`skip(0 - 1)` in `usize`, which wraps to `2 ^ 64 - 1`; the resulting
tree has height `2 ^ 64`, not `0`, so `complete(0, v)` is **not** a
complete tree of height `0` (in a debug build the subtraction panics
instead — either way the claim fails at `depth = 0`). -/
theorem complete_zero_wrong_depth : (complete 0 (0 : Int)).depth ≠ 0 := by
  unfold complete
  have hidx : ((0 : Nat) + (WORD - 1)) % WORD = WORD - 1 := by
    unfold WORD
    omega
  rw [hidx]
  rw [(complete_iterate_spec (0 : Int) (WORD - 1)).1]
  unfold WORD
  omega

end Pfds
